import Mathlib

/-!
Shallow embedding of the buffer-queue core of the sozu proxy
(src/network/buffer_queue.rs): the `BufferQueue` structure, its input-side
operations (`available_input_data`, `merge_input_slices`, `input_data_size`,
`unparsed_data`, `consume_parsed_data`), its output-side operations
(`output_data_size`, `next_output_data`, `consume_output_data`) and the
pool `reset` contract.

Bytes are modelled as natural numbers, buffers as lists. Rust `panic!` and
failed `assert!` are modelled by `Option`: `none` is a fatal failure.
Rust slice indexing `&data[a..b]`, which panics unless `a ≤ b ≤ data.len()`,
is modelled by `sliceRange`.
-/

set_option autoImplicit false

/-- Modelled from the spec: the ByteStore collaborator (the `Buffer` type of
`network/buffer.rs`, whose source is not part of this snapshot): contiguous
byte storage with a logical available-data window (`data`); `consume n`
discards the first `n` bytes of the window; `reset` empties the window while
preserving the allocated capacity. -/
structure ByteStore where
  capacity : Nat
  data : List Nat
deriving Repr, DecidableEq

/-- Modelled from the spec: a freshly constructed store with an empty window. -/
def ByteStore.with_capacity (c : Nat) : ByteStore := ⟨c, []⟩

/-- Modelled from the spec: the length of the currently available data window. -/
def ByteStore.available_data (b : ByteStore) : Nat := b.data.length

/-- Modelled from the spec: discard the first `n` bytes of the window. -/
def ByteStore.consume (b : ByteStore) (n : Nat) : ByteStore :=
  ⟨b.capacity, b.data.drop n⟩

/-- Modelled from the spec: reset the window to empty, keeping the capacity. -/
def ByteStore.reset (b : ByteStore) : ByteStore := ⟨b.capacity, []⟩

/-- `InputElement` from buffer_queue.rs: a received run, either physically in
the store (`Slice`) or kernel-diverted (`Splice`). -/
inductive InputElement where
  | Slice : Nat → InputElement
  | Splice : Nat → InputElement
deriving Repr, DecidableEq

/-- `OutputElement` from buffer_queue.rs. -/
inductive OutputElement where
  | Slice : Nat → OutputElement
  | Delete : Nat → OutputElement
  | Insert : List Nat → OutputElement
  | Splice : Nat → OutputElement
deriving Repr, DecidableEq

/-- The `BufferQueue` structure from buffer_queue.rs (the spec's StreamQueue). -/
structure BufferQueue where
  buffer_position : Nat
  parsed_position : Nat
  output_position : Nat
  start_parsing_position : Nat
  buffer : ByteStore
  input_queue : List InputElement
  output_queue : List OutputElement
deriving Repr, DecidableEq

/-- `BufferQueue::with_capacity`. -/
def BufferQueue.with_capacity (c : Nat) : BufferQueue :=
  ⟨0, 0, 0, 0, ByteStore.with_capacity c, [], []⟩

/-- Rust slice indexing `&l[a..b]`: panics (`none`) unless `a ≤ b ≤ l.length`. -/
def sliceRange (l : List Nat) (a b : Nat) : Option (List Nat) :=
  if a ≤ b ∧ b ≤ l.length then some ((l.take b).drop a) else none

/-- The length an input element contributes to the logical stream. -/
def elemLen : InputElement → Nat
  | InputElement.Slice sz => sz
  | InputElement.Splice sz => sz

/-- `BufferQueue::available_input_data`: a fold adding every element's size. -/
def available_input_data (s : BufferQueue) : Nat :=
  s.input_queue.foldl
    (fun acc el =>
      acc + match el with
            | InputElement.Slice sz => sz
            | InputElement.Splice sz => sz) 0

/-- The accumulator loop of `BufferQueue::input_data_size`. -/
def inputDataGo : Nat → List InputElement → Nat
  | acc, [] => acc
  | acc, InputElement.Slice sz :: rest => inputDataGo (acc + sz) rest
  | acc, InputElement.Splice sz :: rest => inputDataGo (acc + sz) rest

/-- `BufferQueue::input_data_size`: loop over the input queue adding sizes. -/
def input_data_size (s : BufferQueue) : Nat :=
  inputDataGo 0 s.input_queue

/-- The accumulator loop of `BufferQueue::merge_input_slices`: sums leading
`Slice` sizes, breaking at the first `Splice`. -/
def mergeInputGo : Nat → List InputElement → Nat
  | acc, [] => acc
  | acc, InputElement.Splice _ :: _ => acc
  | acc, InputElement.Slice sz :: rest => mergeInputGo (acc + sz) rest

/-- `BufferQueue::merge_input_slices`: the leading-slice sum, with the
`assert!(acc <= self.buffer.available_data())`; `none` is the failed assert. -/
def merge_input_slices (s : BufferQueue) : Option Nat :=
  let acc := mergeInputGo 0 s.input_queue
  if acc ≤ s.buffer.available_data then some acc else none

/-- `BufferQueue::unparsed_data`. Note the source computes
`end = max(self.buffer.data().len(), self.parsed_position + largest_size)`
and returns `&self.buffer.data()[self.parsed_position..end]`. -/
def unparsed_data (s : BufferQueue) : Option (List Nat) :=
  match merge_input_slices s with
  | none => none
  | some largest =>
    if largest = 0 then some []
    else
      sliceRange s.buffer.data s.parsed_position
        (max s.buffer.data.length (s.parsed_position + largest))

/-- The claim's reading of `unparsed_view()`: the byte range
`[parsed_position, parsed_position + merge_leading_input_slices())` clamped to
the store's actual length. Stated from the spec's words, for comparison with
`unparsed_data`. -/
def unparsed_view_spec (s : BufferQueue) : Option (List Nat) :=
  (merge_input_slices s).map fun largest =>
    (s.buffer.data.take (min (s.parsed_position + largest) s.buffer.data.length)).drop
      s.parsed_position

/-- The drain loop of `BufferQueue::consume_parsed_data`: returns the leftover
budget (`to_consume` at loop exit) and the new input queue, or `none` for the
`panic!` on partially retiring a `Splice`. -/
def drainInput (t : Nat) (q : List InputElement) : Option (Nat × List InputElement) :=
  if t = 0 then some (0, q)
  else
    match q with
    | [] => some (t, [])
    | InputElement.Slice sz :: rest =>
      if sz ≤ t then drainInput (t - sz) rest
      else some (0, InputElement.Slice (sz - t) :: rest)
    | InputElement.Splice sz :: rest =>
      if sz ≤ t then drainInput (t - sz) rest
      else none

/-- `BufferQueue::consume_parsed_data`: drain the input queue, then advance
`parsed_position` by `size - to_consume` and `start_parsing_position` by
`size`; `none` is the `panic!` inside the drain. -/
def consume_parsed_data (s : BufferQueue) (size : Nat) : Option BufferQueue :=
  match drainInput size s.input_queue with
  | none => none
  | some (rem, q) =>
    some { s with
            input_queue := q,
            parsed_position := s.parsed_position + (size - rem),
            start_parsing_position := s.start_parsing_position + size }

/-- One iteration of the `consume_parsed_data` drain loop that fully retires
the head element: a positive budget `t` swallows a whole leading `Slice` or
`Splice` of size `sz ≤ t`. The partial-`Slice` and empty-queue cases end the
loop and the partial-`Splice` case panics, so neither is a step. -/
inductive DrainStep : Nat × List InputElement → Nat × List InputElement → Prop where
  | slice (t sz : Nat) (rest : List InputElement) :
      0 < t → sz ≤ t →
      DrainStep (t, InputElement.Slice sz :: rest) (t - sz, rest)
  | splice (t sz : Nat) (rest : List InputElement) :
      0 < t → sz ≤ t →
      DrainStep (t, InputElement.Splice sz :: rest) (t - sz, rest)

/-- The length an output element contributes to `output_data_size`:
`Delete` contributes zero. -/
def outputElemLen : OutputElement → Nat
  | OutputElement.Slice sz => sz
  | OutputElement.Delete _ => 0
  | OutputElement.Insert v => v.length
  | OutputElement.Splice sz => sz

/-- The accumulator loop of `BufferQueue::output_data_size`: adds `Slice`,
`Splice` and `Insert` lengths; `Delete` adds nothing. -/
def outputDataGo : Nat → List OutputElement → Nat
  | acc, [] => acc
  | acc, OutputElement.Splice sz :: rest => outputDataGo (acc + sz) rest
  | acc, OutputElement.Slice sz :: rest => outputDataGo (acc + sz) rest
  | acc, OutputElement.Insert v :: rest => outputDataGo (acc + v.length) rest
  | acc, OutputElement.Delete _ :: rest => outputDataGo acc rest

/-- `BufferQueue::output_data_size`. -/
def output_data_size (s : BufferQueue) : Nat :=
  outputDataGo 0 s.output_queue

/-- The contiguous-`Slice` accumulation of the second phase of
`BufferQueue::next_output_data`: adds `Slice` lengths, breaking at the first
other element. -/
def collectSlices : List OutputElement → Nat
  | OutputElement.Slice sz :: rest => sz + collectSlices rest
  | _ => 0

/-- The queue walk of `BufferQueue::next_output_data`: leading `Delete`
lengths accumulate into the skip offset `start`; the first non-`Delete`
decides: an `Insert` returns its payload directly (`Sum.inl`), a `Slice`
starts the contiguous-slice accumulation, anything else breaks with zero
length. -/
def nextOutputGo : List OutputElement → Nat → List Nat ⊕ Nat × Nat
  | OutputElement.Delete sz :: rest, start => nextOutputGo rest (start + sz)
  | OutputElement.Insert v :: _, _ => Sum.inl v
  | OutputElement.Slice sz :: rest, start => Sum.inr (start, sz + collectSlices rest)
  | _, start => Sum.inr (start, 0)

/-- `BufferQueue::next_output_data`: either an `Insert` payload, or the buffer
view `&self.buffer.data()[start..start + largest_size]` (whose out-of-range
panic is `none`). -/
def next_output_data (s : BufferQueue) : Option (List Nat) :=
  match nextOutputGo s.output_queue 0 with
  | Sum.inl v => some v
  | Sum.inr (start, largest) => sliceRange s.buffer.data start (start + largest)

/-- The drain loop of `BufferQueue::consume_output_data`: returns the new
output queue, the total added to `buffer_position` and the total byte count
passed to `self.buffer.consume`, or `none` for the failed
`assert!(to_consume == 0)` on an emptied queue. Note the `Slice` arm of the
source adds the whole remaining `to_consume` to `buffer_position` and to the
buffer's consume call before comparing it with the element's size. -/
def consumeOutputLoop (t : Nat) (q : List OutputElement) :
    Option (List OutputElement × Nat × Nat) :=
  if t = 0 then some (q, 0, 0)
  else
    match q with
    | [] => none
    | OutputElement.Slice sz :: rest =>
      if sz ≤ t then
        (consumeOutputLoop (t - sz) rest).map fun r => (r.1, t + r.2.1, t + r.2.2)
      else some (OutputElement.Slice (sz - t) :: rest, t, t)
    | OutputElement.Delete sz :: rest =>
      (consumeOutputLoop t rest).map fun r => (r.1, sz + r.2.1, sz + r.2.2)
    | OutputElement.Splice sz :: rest =>
      if sz ≤ t then consumeOutputLoop (t - sz) rest
      else some (OutputElement.Splice (sz - t) :: rest, 0, 0)
    | OutputElement.Insert v :: rest =>
      if v.length ≤ t then consumeOutputLoop (t - v.length) rest
      else some (OutputElement.Insert (v.drop t) :: rest, 0, 0)

/-- `BufferQueue::consume_output_data`: drain the output queue, advancing
`buffer_position` and discarding from the store as the loop dictates. -/
def consume_output_data (s : BufferQueue) (size : Nat) : Option BufferQueue :=
  (consumeOutputLoop size s.output_queue).map fun r =>
    { s with
        output_queue := r.1,
        buffer_position := s.buffer_position + r.2.1,
        buffer := s.buffer.consume r.2.2 }

/-- `impl Reset for BufferQueue`: zero the four positions, reset the store's
window, clear both queues. -/
def BufferQueue.reset (s : BufferQueue) : BufferQueue :=
  { s with
      parsed_position := 0,
      output_position := 0,
      buffer_position := 0,
      start_parsing_position := 0,
      buffer := s.buffer.reset,
      input_queue := [],
      output_queue := [] }

/-- Whether an input element is a `Slice`. -/
def isSliceEl : InputElement → Bool
  | InputElement.Slice _ => true
  | InputElement.Splice _ => false

/-- The total logical length of an input queue. -/
def inputSum (q : List InputElement) : Nat := (q.map elemLen).sum

/-- The length of the leading contiguous run of `Slice` elements. -/
def leadingSliceLen (q : List InputElement) : Nat :=
  ((q.takeWhile isSliceEl).map elemLen).sum

lemma inputDataGo_eq (q : List InputElement) :
    ∀ acc, inputDataGo acc q = acc + inputSum q := by
  induction q with
  | nil => intro acc; simp [inputDataGo, inputSum]
  | cons el rest ih =>
    intro acc
    cases el with
    | Slice sz => simp [inputDataGo, ih, inputSum, elemLen]; omega
    | Splice sz => simp [inputDataGo, ih, inputSum, elemLen]; omega

lemma foldl_input_eq (q : List InputElement) :
    ∀ acc, (q.foldl
      (fun acc el =>
        acc + match el with
              | InputElement.Slice sz => sz
              | InputElement.Splice sz => sz) acc) = acc + inputSum q := by
  induction q with
  | nil => intro acc; simp [inputSum]
  | cons el rest ih =>
    intro acc
    cases el with
    | Slice sz => simp [ih, inputSum, elemLen]; omega
    | Splice sz => simp [ih, inputSum, elemLen]; omega

lemma mergeInputGo_eq (q : List InputElement) :
    ∀ acc, mergeInputGo acc q = acc + leadingSliceLen q := by
  induction q with
  | nil => intro acc; simp [mergeInputGo, leadingSliceLen]
  | cons el rest ih =>
    intro acc
    cases el with
    | Slice sz =>
      simp [mergeInputGo, ih, leadingSliceLen, List.takeWhile, isSliceEl, elemLen]
      omega
    | Splice sz =>
      simp [mergeInputGo, leadingSliceLen, List.takeWhile, isSliceEl]

/-- C7: for every state of the queue, `available_input_data` equals
`input_data_size`, and both equal the sum over all input elements of their
lengths, `Slice sz` and `Splice sz` each contributing `sz`. -/
theorem C7_input_accounting (s : BufferQueue) :
    available_input_data s = input_data_size s ∧
    input_data_size s = (s.input_queue.map elemLen).sum := by
  have h1 := foldl_input_eq s.input_queue 0
  have h2 := inputDataGo_eq s.input_queue 0
  constructor
  · simp [available_input_data, input_data_size, h1, h2]
  · simp [input_data_size, h2, inputSum]

/-- C9: `reset` empties both queues, zeroes the four stream positions and the
store's data window, leaving the object equal to a freshly constructed
`BufferQueue` with the same storage capacity. -/
theorem C9_reset_fresh (s : BufferQueue) :
    s.reset = BufferQueue.with_capacity s.buffer.capacity ∧
    s.reset.input_queue = [] ∧ s.reset.output_queue = [] ∧
    s.reset.buffer_position = 0 ∧ s.reset.parsed_position = 0 ∧
    s.reset.output_position = 0 ∧ s.reset.start_parsing_position = 0 ∧
    s.reset.buffer.data = [] :=
  ⟨rfl, rfl, rfl, rfl, rfl, rfl, rfl, rfl⟩

/-- C2: a `Delete d` at the head of the output queue, met with any positive
remaining budget `t`, is removed whole: the full `d` is added to the
`buffer_position` advance and to the store discard, while the budget `t`
passed on to the rest of the queue is not decremented — so one call can
advance the physical buffer by more than the requested size. -/
theorem C2_delete_unconditional (t d : Nat) (rest : List OutputElement)
    (h : 0 < t) :
    consumeOutputLoop t (OutputElement.Delete d :: rest)
      = (consumeOutputLoop t rest).map fun r => (r.1, d + r.2.1, d + r.2.2) := by
  have ht : t ≠ 0 := Nat.pos_iff_ne_zero.mp h
  rw [consumeOutputLoop]
  simp [ht]

theorem C2_delete_unconditional_witness :
    consumeOutputLoop 1 (OutputElement.Delete 2 :: [OutputElement.Slice 4])
      = (consumeOutputLoop 1 [OutputElement.Slice 4]).map
          fun r => (r.1, 2 + r.2.1, 2 + r.2.2) :=
  C2_delete_unconditional 1 2 [OutputElement.Slice 4] (by decide)

/-- C5: when the output queue is exactly `[Delete d, Slice sz]` and the store
holds at least `d + sz` available bytes, `next_output_data` returns the view
of length `sz` starting `d` bytes past the current physical position. -/
theorem C5_delete_then_slice (s : BufferQueue) (d sz : Nat)
    (h1 : s.output_queue = [OutputElement.Delete d, OutputElement.Slice sz])
    (h2 : d + sz ≤ s.buffer.data.length) :
    next_output_data s = some ((s.buffer.data.take (d + sz)).drop d) ∧
    ((s.buffer.data.take (d + sz)).drop d).length = sz := by
  constructor
  · rw [next_output_data, h1]
    simp [nextOutputGo, collectSlices, sliceRange]
    omega
  · simp [List.length_drop, List.length_take]
    omega

theorem C5_delete_then_slice_witness :
    next_output_data
        ⟨0, 0, 0, 0, ⟨10, [69, 70, 71, 72, 73, 74]⟩, [],
          [OutputElement.Delete 2, OutputElement.Slice 4]⟩
      = some ((([69, 70, 71, 72, 73, 74] : List Nat).take (2 + 4)).drop 2) ∧
    ((([69, 70, 71, 72, 73, 74] : List Nat).take (2 + 4)).drop 2).length = 4 :=
  C5_delete_then_slice
    ⟨0, 0, 0, 0, ⟨10, [69, 70, 71, 72, 73, 74]⟩, [],
      [OutputElement.Delete 2, OutputElement.Slice 4]⟩ 2 4 rfl (by decide)

/-- C8: `merge_input_slices` sums the lengths of the leading contiguous run of
`Slice` elements (stopping at the first `Splice` or at the end of the queue);
its assertion fails exactly when that sum exceeds the store's available data,
and when the sum is within the available data it returns the sum normally. -/
theorem C8_merge_input_slices (s : BufferQueue) :
    (merge_input_slices s = none ↔
      s.buffer.available_data < leadingSliceLen s.input_queue) ∧
    (leadingSliceLen s.input_queue ≤ s.buffer.available_data →
      merge_input_slices s = some (leadingSliceLen s.input_queue)) := by
  have h := mergeInputGo_eq s.input_queue 0
  rw [merge_input_slices]
  simp only [h, Nat.zero_add]
  by_cases hle : leadingSliceLen s.input_queue ≤ s.buffer.available_data
  · rw [if_pos hle]
    exact ⟨⟨fun hnone => absurd hnone (Option.some_ne_none _),
            fun hlt => absurd hlt (Nat.not_lt.mpr hle)⟩, fun _ => rfl⟩
  · rw [if_neg hle]
    exact ⟨⟨fun _ => Nat.not_le.mp hle, fun _ => rfl⟩,
           fun hle2 => absurd hle2 hle⟩

theorem C8_merge_input_slices_witness :
    merge_input_slices
        ⟨0, 0, 0, 0, ⟨10, [65, 66, 67, 68]⟩,
          [InputElement.Slice 3, InputElement.Splice 2, InputElement.Slice 5], []⟩
      = some (leadingSliceLen
          [InputElement.Slice 3, InputElement.Splice 2, InputElement.Slice 5]) :=
  (C8_merge_input_slices
    ⟨0, 0, 0, 0, ⟨10, [65, 66, 67, 68]⟩,
      [InputElement.Slice 3, InputElement.Splice 2, InputElement.Slice 5], []⟩).2
    (by decide)

lemma inputSum_cons (el : InputElement) (rest : List InputElement) :
    inputSum (el :: rest) = elemLen el + inputSum rest := by
  simp [inputSum]

lemma drainInput_zero (q : List InputElement) : drainInput 0 q = some (0, q) := by
  rw [drainInput.eq_def]; simp

lemma drainInput_nil (t : Nat) (h : t ≠ 0) : drainInput t [] = some (t, []) := by
  rw [drainInput.eq_def]; simp [h]

lemma drainInput_slice (t sz : Nat) (rest : List InputElement) (h : t ≠ 0) :
    drainInput t (InputElement.Slice sz :: rest)
      = if sz ≤ t then drainInput (t - sz) rest
        else some (0, InputElement.Slice (sz - t) :: rest) := by
  rw [drainInput.eq_def]; simp [h]

lemma drainInput_splice (t sz : Nat) (rest : List InputElement) (h : t ≠ 0) :
    drainInput t (InputElement.Splice sz :: rest)
      = if sz ≤ t then drainInput (t - sz) rest else none := by
  rw [drainInput.eq_def]; simp [h]

lemma drainInput_sum :
    ∀ (q : List InputElement) (t rem : Nat) (q' : List InputElement),
      drainInput t q = some (rem, q') → inputSum q' + t = inputSum q + rem := by
  intro q
  induction q with
  | nil =>
    intro t rem q' h
    by_cases ht : t = 0
    · subst ht
      rw [drainInput_zero] at h
      simp only [Option.some.injEq, Prod.mk.injEq] at h
      obtain ⟨h1, h2⟩ := h
      subst h1; subst h2
      simp
    · rw [drainInput_nil t ht] at h
      simp only [Option.some.injEq, Prod.mk.injEq] at h
      obtain ⟨h1, h2⟩ := h
      subst h1; subst h2
      simp [inputSum]
  | cons el rest ih =>
    intro t rem q' h
    by_cases ht : t = 0
    · subst ht
      rw [drainInput_zero] at h
      simp only [Option.some.injEq, Prod.mk.injEq] at h
      obtain ⟨h1, h2⟩ := h
      subst h1; subst h2
      omega
    · cases el with
      | Slice sz =>
        rw [drainInput_slice t sz rest ht] at h
        by_cases hsz : sz ≤ t
        · rw [if_pos hsz] at h
          have := ih (t - sz) rem q' h
          rw [inputSum_cons]
          simp only [elemLen]
          omega
        · rw [if_neg hsz] at h
          simp only [Option.some.injEq, Prod.mk.injEq] at h
          obtain ⟨h1, h2⟩ := h
          subst h1; subst h2
          rw [inputSum_cons, inputSum_cons]
          simp only [elemLen]
          omega
      | Splice sz =>
        rw [drainInput_splice t sz rest ht] at h
        by_cases hsz : sz ≤ t
        · rw [if_pos hsz] at h
          have := ih (t - sz) rem q' h
          rw [inputSum_cons]
          simp only [elemLen]
          omega
        · rw [if_neg hsz] at h
          exact absurd h (by simp)

lemma drainInput_rem_pos :
    ∀ (q : List InputElement) (t rem : Nat) (q' : List InputElement),
      drainInput t q = some (rem, q') → 0 < rem →
      q' = [] ∧ inputSum q + rem = t := by
  intro q
  induction q with
  | nil =>
    intro t rem q' h hrem
    by_cases ht : t = 0
    · subst ht
      rw [drainInput_zero] at h
      simp only [Option.some.injEq, Prod.mk.injEq] at h
      omega
    · rw [drainInput_nil t ht] at h
      simp only [Option.some.injEq, Prod.mk.injEq] at h
      obtain ⟨h1, h2⟩ := h
      subst h1; subst h2
      simp [inputSum]
  | cons el rest ih =>
    intro t rem q' h hrem
    by_cases ht : t = 0
    · subst ht
      rw [drainInput_zero] at h
      simp only [Option.some.injEq, Prod.mk.injEq] at h
      omega
    · cases el with
      | Slice sz =>
        rw [drainInput_slice t sz rest ht] at h
        by_cases hsz : sz ≤ t
        · rw [if_pos hsz] at h
          obtain ⟨h1, h2⟩ := ih (t - sz) rem q' h hrem
          refine ⟨h1, ?_⟩
          rw [inputSum_cons]
          simp only [elemLen]
          omega
        · rw [if_neg hsz] at h
          simp only [Option.some.injEq, Prod.mk.injEq] at h
          omega
      | Splice sz =>
        rw [drainInput_splice t sz rest ht] at h
        by_cases hsz : sz ≤ t
        · rw [if_pos hsz] at h
          obtain ⟨h1, h2⟩ := ih (t - sz) rem q' h hrem
          refine ⟨h1, ?_⟩
          rw [inputSum_cons]
          simp only [elemLen]
          omega
        · rw [if_neg hsz] at h
          exact absurd h (by simp)

/-- C4: consuming `n ≤ input_data_size` parsed bytes, when the drain succeeds
(it does not stop strictly inside a `Splice`), decreases `input_data_size` by
exactly `n` and advances `parsed_position` and `start_parsing_position` by
exactly `n`. -/
theorem C4_consume_conservation (s : BufferQueue) (n : Nat) (s' : BufferQueue)
    (h1 : n ≤ input_data_size s)
    (h2 : consume_parsed_data s n = some s') :
    input_data_size s' = input_data_size s - n ∧
    s'.parsed_position = s.parsed_position + n ∧
    s'.start_parsing_position = s.start_parsing_position + n := by
  rw [consume_parsed_data] at h2
  cases hd : drainInput n s.input_queue with
  | none => rw [hd] at h2; exact absurd h2 (by simp)
  | some p =>
    obtain ⟨rem, q⟩ := p
    rw [hd] at h2
    simp only [Option.some.injEq] at h2
    have hsum := drainInput_sum s.input_queue n rem q hd
    have hs : input_data_size s = inputSum s.input_queue := by
      rw [input_data_size, inputDataGo_eq s.input_queue 0]; omega
    have hrem : rem = 0 := by
      by_contra hne
      obtain ⟨-, habs⟩ :=
        drainInput_rem_pos s.input_queue n rem q hd (Nat.pos_of_ne_zero hne)
      omega
    subst hrem
    have hiq : s'.input_queue = q := by rw [← h2]
    have hpp : s'.parsed_position = s.parsed_position + (n - 0) := by rw [← h2]
    have hsp : s'.start_parsing_position = s.start_parsing_position + n := by
      rw [← h2]
    have hs' : input_data_size s' = inputSum q := by
      rw [input_data_size, hiq, inputDataGo_eq q 0]; omega
    exact ⟨by omega, by omega, by omega⟩

theorem C4_consume_conservation_witness :
    input_data_size
        ({ buffer_position := 0, parsed_position := 4, output_position := 0,
           start_parsing_position := 4,
           buffer := ⟨10, [65, 66, 67, 68, 69, 70, 71, 72, 73, 74]⟩,
           input_queue := [InputElement.Slice 6], output_queue := [] } : BufferQueue)
      = input_data_size
          (⟨0, 0, 0, 0, ⟨10, [65, 66, 67, 68, 69, 70, 71, 72, 73, 74]⟩,
            [InputElement.Slice 10], []⟩ : BufferQueue) - 4 ∧
    (4 : Nat) = 0 + 4 ∧ (4 : Nat) = 0 + 4 :=
  C4_consume_conservation
    ⟨0, 0, 0, 0, ⟨10, [65, 66, 67, 68, 69, 70, 71, 72, 73, 74]⟩,
      [InputElement.Slice 10], []⟩ 4
    { buffer_position := 0, parsed_position := 4, output_position := 0,
      start_parsing_position := 4,
      buffer := ⟨10, [65, 66, 67, 68, 69, 70, 71, 72, 73, 74]⟩,
      input_queue := [InputElement.Slice 6], output_queue := [] }
    (by decide) (by decide)

lemma drainStep_eq {a b : Nat × List InputElement} (h : DrainStep a b) :
    drainInput a.1 a.2 = drainInput b.1 b.2 := by
  cases h with
  | slice t sz rest ht hsz =>
    rw [drainInput_slice t sz rest (Nat.pos_iff_ne_zero.mp ht), if_pos hsz]
  | splice t sz rest ht hsz =>
    rw [drainInput_splice t sz rest (Nat.pos_iff_ne_zero.mp ht), if_pos hsz]

lemma reaches_drainInput_eq {a b : Nat × List InputElement}
    (h : Relation.ReflTransGen DrainStep a b) :
    drainInput a.1 a.2 = drainInput b.1 b.2 := by
  induction h with
  | refl => rfl
  | tail _ hbc ih => exact ih.trans (drainStep_eq hbc)

lemma drainInput_none_iff :
    ∀ (q : List InputElement) (t : Nat),
      drainInput t q = none ↔
        ∃ r sz rest,
          Relation.ReflTransGen DrainStep (t, q) (r, InputElement.Splice sz :: rest) ∧
          0 < r ∧ r < sz := by
  intro q
  induction q with
  | nil =>
    intro t
    constructor
    · intro h
      by_cases ht : t = 0
      · subst ht; rw [drainInput_zero] at h; exact absurd h (by simp)
      · rw [drainInput_nil t ht] at h; exact absurd h (by simp)
    · intro ⟨r, sz, rest, hpath, h1, h2⟩
      have := reaches_drainInput_eq hpath
      simp only at this
      rw [this, drainInput_splice r sz rest (Nat.pos_iff_ne_zero.mp h1),
          if_neg (Nat.not_le.mpr h2)]
  | cons el rest ih =>
    intro t
    constructor
    · intro h
      by_cases ht : t = 0
      · subst ht; rw [drainInput_zero] at h; exact absurd h (by simp)
      · cases el with
        | Slice sz =>
          rw [drainInput_slice t sz rest ht] at h
          by_cases hsz : sz ≤ t
          · rw [if_pos hsz] at h
            obtain ⟨r, sz', rest', hpath, h1, h2⟩ := (ih (t - sz)).mp h
            exact ⟨r, sz', rest',
              Relation.ReflTransGen.head
                (DrainStep.slice t sz rest (Nat.pos_of_ne_zero ht) hsz) hpath,
              h1, h2⟩
          · rw [if_neg hsz] at h; exact absurd h (by simp)
        | Splice sz =>
          rw [drainInput_splice t sz rest ht] at h
          by_cases hsz : sz ≤ t
          · rw [if_pos hsz] at h
            obtain ⟨r, sz', rest', hpath, h1, h2⟩ := (ih (t - sz)).mp h
            exact ⟨r, sz', rest',
              Relation.ReflTransGen.head
                (DrainStep.splice t sz rest (Nat.pos_of_ne_zero ht) hsz) hpath,
              h1, h2⟩
          · exact ⟨t, sz, rest, Relation.ReflTransGen.refl,
              Nat.pos_of_ne_zero ht, Nat.not_le.mp hsz⟩
    · intro ⟨r, sz, rest', hpath, h1, h2⟩
      have := reaches_drainInput_eq hpath
      simp only at this
      rw [this, drainInput_splice r sz rest' (Nat.pos_iff_ne_zero.mp h1),
          if_neg (Nat.not_le.mpr h2)]

/-- C6: `consume_parsed_data` fails fatally (the `panic!`) exactly when the
drain loop, started with budget `size` on the input queue, reaches (after
fully retiring zero or more leading elements) a leading `Splice sz` with a
positive remaining budget `r` strictly smaller than `sz`; in particular a
drain that only ever meets `Splice` heads it can retire wholly succeeds. -/
theorem C6_splice_panic_iff (s : BufferQueue) (n : Nat) :
    consume_parsed_data s n = none ↔
      ∃ r sz rest,
        Relation.ReflTransGen DrainStep (n, s.input_queue)
          (r, InputElement.Splice sz :: rest) ∧
        0 < r ∧ r < sz := by
  rw [consume_parsed_data]
  cases hd : drainInput n s.input_queue with
  | none =>
    constructor
    · intro _
      exact (drainInput_none_iff s.input_queue n).mp hd
    · intro _
      rfl
  | some p =>
    constructor
    · intro h; exact absurd h (by simp)
    · intro hex
      have := (drainInput_none_iff s.input_queue n).mpr hex
      rw [hd] at this
      exact absurd this (by simp)

/-- The total transmissible length of an output queue. -/
def outSum (q : List OutputElement) : Nat := (q.map outputElemLen).sum

lemma outSum_cons (el : OutputElement) (rest : List OutputElement) :
    outSum (el :: rest) = outputElemLen el + outSum rest := by
  simp [outSum]

lemma outputDataGo_eq (q : List OutputElement) :
    ∀ acc, outputDataGo acc q = acc + outSum q := by
  induction q with
  | nil => intro acc; simp [outputDataGo, outSum]
  | cons el rest ih =>
    intro acc
    cases el with
    | Slice sz => rw [outputDataGo, ih, outSum_cons]; simp [outputElemLen]; omega
    | Delete sz => rw [outputDataGo, ih, outSum_cons]; simp [outputElemLen]
    | Insert v => rw [outputDataGo, ih, outSum_cons]; simp [outputElemLen]; omega
    | Splice sz => rw [outputDataGo, ih, outSum_cons]; simp [outputElemLen]; omega

lemma consumeOutputLoop_none (q : List OutputElement) :
    ∀ t, outSum q < t → consumeOutputLoop t q = none := by
  induction q with
  | nil =>
    intro t h
    have ht : t ≠ 0 := by omega
    rw [consumeOutputLoop]
    simp [ht]
  | cons el rest ih =>
    intro t h
    have ht : t ≠ 0 := by omega
    rw [outSum_cons] at h
    cases el with
    | Slice sz =>
      simp only [outputElemLen] at h
      have hsz : sz ≤ t := by omega
      rw [consumeOutputLoop]
      simp [ht, hsz, ih (t - sz) (by omega)]
    | Delete sz =>
      simp only [outputElemLen] at h
      rw [consumeOutputLoop]
      simp [ht, ih t (by omega)]
    | Insert v =>
      simp only [outputElemLen] at h
      have hsz : v.length ≤ t := by omega
      rw [consumeOutputLoop]
      simp [ht, hsz, ih (t - v.length) (by omega)]
    | Splice sz =>
      simp only [outputElemLen] at h
      have hsz : sz ≤ t := by omega
      rw [consumeOutputLoop]
      simp [ht, hsz, ih (t - sz) (by omega)]

lemma drainInput_over :
    ∀ (q : List InputElement) (t : Nat), inputSum q < t →
      drainInput t q = some (t - inputSum q, []) := by
  intro q
  induction q with
  | nil =>
    intro t h
    have ht : t ≠ 0 := by simp [inputSum] at h; omega
    rw [drainInput_nil t ht]
    simp [inputSum]
  | cons el rest ih =>
    intro t h
    rw [inputSum_cons] at h
    have ht : t ≠ 0 := by omega
    cases el with
    | Slice sz =>
      simp only [elemLen] at h
      have hsz : sz ≤ t := by omega
      rw [drainInput_slice t sz rest ht, if_pos hsz, ih (t - sz) (by omega)]
      rw [inputSum_cons]
      simp only [elemLen]
      congr 2
      omega
    | Splice sz =>
      simp only [elemLen] at h
      have hsz : sz ≤ t := by omega
      rw [drainInput_splice t sz rest ht, if_pos hsz, ih (t - sz) (by omega)]
      rw [inputSum_cons]
      simp only [elemLen]
      congr 2
      omega

/-- C10: requesting strictly more than `output_data_size` from
`consume_output_data` empties the output queue with budget remaining and hits
the `assert!(to_consume == 0)`, a fatal failure; `consume_parsed_data` in the
analogous over-consumption situation — any state with `size` strictly above
`input_data_size`, `Splice` elements included, since the dominating budget
retires every element wholly — returns normally, its empty-queue arm being a
silent `break`. -/
theorem C10_overconsume_contrast :
    (∀ (s : BufferQueue) (n : Nat), output_data_size s < n →
      consume_output_data s n = none) ∧
    (∀ (s : BufferQueue) (n : Nat), input_data_size s < n →
      ∃ s', consume_parsed_data s n = some s') := by
  constructor
  · intro s n h
    have hlt : outSum s.output_queue < n := by
      rw [output_data_size, outputDataGo_eq s.output_queue 0] at h
      omega
    rw [consume_output_data, consumeOutputLoop_none s.output_queue n hlt]
    rfl
  · intro s n h
    have hsum : inputSum s.input_queue < n := by
      rw [input_data_size, inputDataGo_eq s.input_queue 0] at h
      omega
    have hd := drainInput_over s.input_queue n hsum
    exact ⟨{ s with
              input_queue := [],
              parsed_position :=
                s.parsed_position + (n - (n - inputSum s.input_queue)),
              start_parsing_position := s.start_parsing_position + n },
           by rw [consume_parsed_data, hd]⟩

theorem C10_overconsume_contrast_witness :
    consume_output_data
        ⟨0, 0, 0, 0, ⟨10, [65, 66]⟩, [], [OutputElement.Slice 1]⟩ 2 = none ∧
    ∃ s', consume_parsed_data
        ⟨0, 0, 0, 0, ⟨10, [65, 66]⟩, [InputElement.Splice 5], []⟩ 7 = some s' :=
  ⟨C10_overconsume_contrast.1
     ⟨0, 0, 0, 0, ⟨10, [65, 66]⟩, [], [OutputElement.Slice 1]⟩ 2 (by decide),
   C10_overconsume_contrast.2
     ⟨0, 0, 0, 0, ⟨10, [65, 66]⟩, [InputElement.Splice 5], []⟩ 7 (by decide)⟩

/-- C1: the code behavior at a consume that spans past one `Slice` into the
next. The output queue is `[Slice 2, Slice 5]` over a store of 7 available
bytes, and `consume_output_data 3` is requested: the `Slice` arm adds the
whole remaining budget to `buffer_position` and to the store discard before
splitting, so the state advances `buffer_position` by 4 and discards 4 bytes
(7 become 3), not the claimed exactly-3. -/
theorem C1_spanning_overadvance :
    (consume_output_data
        ⟨0, 0, 0, 0, ⟨10, [0, 1, 2, 3, 4, 5, 6]⟩, [],
          [OutputElement.Slice 2, OutputElement.Slice 5]⟩ 3).map
        (fun s => (s.buffer_position, s.buffer.data, s.output_queue))
      = some (4, [4, 5, 6], [OutputElement.Slice 4]) := by decide

/-- C3: the code behavior of `unparsed_data` at a state where the store's
window has been shortened by output-side consumption: data window of 8 bytes,
`parsed_position = 4`, input queue `[Slice 6]`. The source computes
`end = max(8, 4 + 6) = 10` instead of clamping, and the slice `[4..10]` of an
8-byte window panics, where the claimed clamped view is bytes `[4..8)`. -/
theorem C3_unclamped :
    unparsed_data
        ⟨2, 4, 0, 4, ⟨10, [67, 68, 69, 70, 71, 72, 73, 74]⟩,
          [InputElement.Slice 6], []⟩ = none ∧
    unparsed_view_spec
        ⟨2, 4, 0, 4, ⟨10, [67, 68, 69, 70, 71, 72, 73, 74]⟩,
          [InputElement.Slice 6], []⟩ = some [71, 72, 73, 74] := by decide
